import Mathlib

/-!
Verification of the uint64 anonymization mapper of libanon
(`src/anon-uint64.c`) and the positional-argument handling of the CLI
`uint64` subcommand (`src/anon.c`).

The C code is embedded shallowly:

* `uint64_t` values are `Nat` with explicit reduction modulo `W = 2 ^ 64`
  where the C arithmetic can wrap;
* the OpenSSL `RAND_bytes` source is an explicit stream `g : Nat → Nat`
  together with a position index that every drawing operation threads
  through (`g i` is the 8-byte value produced by the i-th call);
* the randomized re-draw loops of the C code (`do … while` around
  `generate_random_number`) are given explicit fuel; running out of fuel
  is the distinguished outcome `AnonErr.fuelOut`, modelling an execution
  that is still inside the loop after that many iterations;
* a failing C `assert` is the outcome `AnonErr.assertFail`, and the
  `fprintf`+`assert(0)` exit of the lex finalization is
  `AnonErr.resourceExhaustion`;
* `malloc` results are controlled by an explicit `allocOk` flag where the
  claim under study mentions allocation failure (`list_insert`), and are
  taken as succeeding elsewhere, matching the `assert`-guarded uses.
-/

namespace Libanon

/-- 2 ^ 64, the modulus of `uint64_t` arithmetic. -/
def W : Nat := 2 ^ 64

/-- The lifecycle states of `anon_uint64_t` (enum `anon_uint64_state_t`,
anon-uint64.c lines 49-55). -/
inductive AnonState where
  | INIT
  | NON_LEX
  | LEX
  deriving DecidableEq, Repr

/-- Failure outcomes of the embedded operations: a failing C `assert`,
the `fprintf`+`assert(0)` in the lex finalization when the used set
exceeds the range, and exhaustion of the explicit fuel of a modelled
re-draw loop (the C loop is still spinning at that point). -/
inductive AnonErr where
  | assertFail
  | resourceExhaustion
  | fuelOut
  deriving DecidableEq, Repr

/-- Embedding of `struct _anon_uint64` (anon-uint64.c lines 41-47).
The `LHASH *hash_table` mapping numbers to their anonymized images is an
association list; the `struct node *list` is the sorted linked list. -/
structure AnonUint64 where
  table : List (Nat × Nat)
  list : List Nat
  state : AnonState
  lower : Nat
  upper : Nat
  range : Nat
  deriving DecidableEq, Repr

/-- Embedding of `list_insert` (anon-uint64.c lines 79-109).  The `Int`
component is the C return value: `1` when `num` is already in the list
(list unchanged), `0` after a fresh insertion (the traversal breaks at
the first strictly smaller element, keeping a descending-sorted list
sorted), `-1` when the `malloc` of the new node fails (`allocOk =
false`), leaving the list unchanged. -/
def list_insert (allocOk : Bool) (num : Nat) : List Nat → Int × List Nat
  | [] => if allocOk then (0, [num]) else (-1, [])
  | p :: rest =>
    if num = p then (1, p :: rest)
    else if num > p then
      (if allocOk then (0, num :: p :: rest) else (-1, p :: rest))
    else
      ((list_insert allocOk num rest).1, p :: (list_insert allocOk num rest).2)

/-- Embedding of `generate_random_number` (anon-uint64.c lines 112-120):
the raw 8-byte draw `r` obtained from `RAND_bytes` is reduced modulo
`a.range` and shifted by `a.lower`, all in 64-bit wrapping arithmetic.
When `a.range = 0` the C reduction `*anum %= a->range` divides by zero
and has no defined result, so the model returns `none`. -/
def generate_random_number (r : Nat) (a : AnonUint64) : Option Nat :=
  if a.range = 0 then none
  else some ((r % W % a.range + a.lower) % W)

/-- The re-draw loop shared by `anon_uint64_map` (lines 326-330) and the
lex finalization (lines 158-160): draw a random number and insert it
into the uniqueness list until `list_insert` reports something other
than `1`.  `g` is the `RAND_bytes` stream, `i` the current stream
position, and the first `Nat` argument the remaining fuel; `none` means
the loop is still running after `fuel` iterations. -/
def drawFresh (g : Nat → Nat) (a : AnonUint64) :
    Nat → Nat → List Nat → Option (Nat × Nat × List Nat)
  | 0, _, _ => none
  | fuel + 1, i, l =>
    match generate_random_number (g i) a with
    | none => none
    | some anum =>
      if (list_insert true anum l).1 = 1 then drawFresh g a fuel (i + 1) l
      else some (anum, i + 1, (list_insert true anum l).2)

/-- The first loop of the `LEX` branch of `anon_uint64_set_state`
(anon-uint64.c lines 148-161): walk the used list, counting; as soon as
the count exceeds `a->upper - a->lower + 1` (the inline expression of
line 153, in wrapping 64-bit arithmetic) report the fatal
more-numbers-than-range error; otherwise draw a fresh random number into
the hashlist for each used element.  Returns the final stream position
and the hashlist. -/
def populate (g : Nat → Nat) (a : AnonUint64) (fuel : Nat) :
    List Nat → Nat → Nat → List Nat → Except AnonErr (Nat × List Nat)
  | [], _, i, hl => .ok (i, hl)
  | _ :: ps, count, i, hl =>
    if count + 1 > (a.upper - a.lower + 1) % W then .error .resourceExhaustion
    else
      match drawFresh g a fuel i hl with
      | none => .error .fuelOut
      | some (_, i2, hl2) => populate g a fuel ps (count + 1) i2 hl2

/-- Embedding of `lh_retrieve` on the mapper's hash table: look up the
image stored for `num`.  The table keys are pairwise distinct in every
reachable state, so first-match lookup is faithful. -/
def lh_retrieve : List (Nat × Nat) → Nat → Option Nat
  | [], _ => none
  | (k, v) :: t, num => if k = num then some v else lh_retrieve t num

/-- Embedding of `anon_uint64_set_state` (anon-uint64.c lines 126-194).
The `INIT` case returns 0 without touching the state whatever the
current state is (the `break` of line 137 falls through to the final
`return 0`).  The `NON_LEX` and `LEX` cases `assert(a->state == INIT)`
when the state differs; entering `LEX` runs the finalization: populate
the hashlist with unique random numbers, pair the used list with the
hashlist entrywise into the hash table (lines 163-171), and drop the
used list. -/
def anon_uint64_set_state (g : Nat → Nat) (fuel : Nat) (a : AnonUint64)
    (st : AnonState) (i : Nat) : Except AnonErr (AnonUint64 × Nat) :=
  match st with
  | .INIT => .ok (a, i)
  | .NON_LEX =>
    if a.state = .NON_LEX then .ok (a, i)
    else if a.state = .INIT then .ok ({ a with state := .NON_LEX }, i)
    else .error .assertFail
  | .LEX =>
    if a.state = .LEX then .ok (a, i)
    else if a.state = .INIT then
      match populate g a fuel a.list 0 i [] with
      | .error e => .error e
      | .ok (i2, hashlist) =>
        .ok ({ a with state := .LEX,
                      table := a.list.zip hashlist ++ a.table,
                      list := [] }, i2)
    else .error .assertFail

/-- Embedding of `anon_uint64_new` (anon-uint64.c lines 200-234): checks
`assert(lower <= upper)` and stores `range = upper - lower + 1` in
wrapping 64-bit arithmetic (line 231). -/
def anon_uint64_new (lower upper : Nat) : Option AnonUint64 :=
  if lower ≤ upper then
    some { table := [], list := [], state := .INIT, lower := lower, upper := upper,
           range := (upper - lower + 1) % W }
  else none

/-- Embedding of `anon_uint64_set_key` (anon-uint64.c lines 277-282):
the body is empty apart from `assert(a)` — the key is ignored. -/
def anon_uint64_set_key (a : AnonUint64) (_key : Nat) : AnonUint64 := a

/-- Embedding of `anon_uint64_set_used` (anon-uint64.c lines 290-302).
The call `anon_uint64_set_state(a, INIT)` always returns 0 and changes
nothing (see `anon_uint64_set_state`), so it is elided here.  Returns 0
when `list_insert` returns 0 or 1, and -1 on allocation failure. -/
def anon_uint64_set_used (allocOk : Bool) (a : AnonUint64) (num : Nat) :
    Int × AnonUint64 :=
  if (list_insert allocOk num a.list).1 ≥ 0 then
    (0, { a with list := (list_insert allocOk num a.list).2 })
  else (-1, a)

/-- Embedding of `anon_uint64_map` (anon-uint64.c lines 309-339): switch
to `NON_LEX`, look the number up in the hash table, and on a miss run
the re-draw loop over the uniqueness list `a->list`, then record the new
pair in the hash table.  Returns the anonymized number, the new mapper
state and the new stream position. -/
def anon_uint64_map (g : Nat → Nat) (fuel : Nat) (a : AnonUint64) (num : Nat)
    (i : Nat) : Except AnonErr (Nat × AnonUint64 × Nat) :=
  match anon_uint64_set_state g fuel a .NON_LEX i with
  | .error e => .error e
  | .ok (a1, i1) =>
    match lh_retrieve a1.table num with
    | some h => .ok (h, a1, i1)
    | none =>
      match drawFresh g a1 fuel i1 a1.list with
      | none => .error .fuelOut
      | some (anum, i2, l2) =>
        .ok (anum, { a1 with list := l2, table := (num, anum) :: a1.table }, i2)

/-- Embedding of `anon_uint64_map_lex` (anon-uint64.c lines 344-358):
switch to `LEX` (finalizing on the first call), look the number up in
the hash table, and `assert(p)` — a miss is an assertion failure. -/
def anon_uint64_map_lex (g : Nat → Nat) (fuel : Nat) (a : AnonUint64) (num : Nat)
    (i : Nat) : Except AnonErr (Nat × AnonUint64 × Nat) :=
  match anon_uint64_set_state g fuel a .LEX i with
  | .error e => .error e
  | .ok (a1, i1) =>
    match lh_retrieve a1.table num with
    | some h => .ok (h, a1, i1)
    | none => .error .assertFail

/-- A call against a uint64 mapper, for reasoning about call sequences. -/
inductive Op where
  | setKey (key : Nat)
  | setUsed (num : Nat)
  | mapOp (num : Nat)
  | mapLex (num : Nat)
  deriving DecidableEq, Repr

/-- Run one call against a mapper (state and stream position);
allocation is taken as succeeding. -/
def runOp (g : Nat → Nat) (fuel : Nat) (s : AnonUint64 × Nat) :
    Op → Except AnonErr (AnonUint64 × Nat)
  | .setKey k => .ok (anon_uint64_set_key s.1 k, s.2)
  | .setUsed n => .ok ((anon_uint64_set_used true s.1 n).2, s.2)
  | .mapOp n =>
    match anon_uint64_map g fuel s.1 n s.2 with
    | .error e => .error e
    | .ok (_, a2, i2) => .ok (a2, i2)
  | .mapLex n =>
    match anon_uint64_map_lex g fuel s.1 n s.2 with
    | .error e => .error e
    | .ok (_, a2, i2) => .ok (a2, i2)

/-- Run a sequence of calls, stopping at the first failure. -/
def runOps (g : Nat → Nat) (fuel : Nat) :
    AnonUint64 × Nat → List Op → Except AnonErr (AnonUint64 × Nat)
  | s, [] => .ok s
  | s, op :: ops =>
    match runOp g fuel s op with
    | .error e => .error e
    | .ok s2 => runOps g fuel s2 ops

/-- Decimal parse of a positional argument, as the
`sscanf(argv[k], "%SCNu64", …)` calls of `cmd_uint64` accept it: a
nonempty all-digit string. -/
def parse_u64 (s : String) : Option Nat :=
  if s.data = [] then none
  else s.data.foldl (fun acc c =>
    match acc with
    | none => none
    | some n => if '0' ≤ c ∧ c ≤ '9' then some (n * 10 + (c.toNat - '0'.toNat)) else none)
    (some 0)

/-- Embedding of the positional-argument handling of `cmd_uint64`
(anon.c lines 761-795): after option processing, `argv[0]` is parsed as
`lower` and `argv[1]` as `upper` (both rejecting non-numbers), at least
three positional arguments are required, and the input file opened is
`xfopen(argv[1], "r")` — the second positional argument.  (The parallel
`cmd_int64` opens `xfopen(argv[2], "r")`.)  Returns
`(lower, upper, name of the opened file)`. -/
def cmd_uint64_args : List String → Option (Nat × Nat × String)
  | a0 :: a1 :: _ :: _ =>
    match parse_u64 a0, parse_u64 a1 with
    | some lo, some up => some (lo, up, a1)
    | _, _ => none
  | _ => none

/-- `true` exactly on a successful result. -/
def isOk {α : Type} : Except AnonErr α → Bool
  | .ok _ => true
  | .error _ => false

/-- The strictly descending list `[lo + c - 1, …, lo + 1, lo]`, the
hashlist produced by the finalization when the random stream is the
identity. -/
def descList (lo : Nat) : Nat → List Nat
  | 0 => []
  | c + 1 => (lo + c) :: descList lo c

/-- Facts preserved by every operation on a mapper created by
`anon_uint64_new lo up`: the bound fields, the wrapped `range` field,
and containment in `[lo, up]` of every anonymized image stored in the
hash table. -/
@[reducible] def RangeInv (lo up : Nat) (a : AnonUint64) : Prop :=
  a.lower = lo ∧ a.upper = up ∧ a.range = (up - lo + 1) % W ∧
    ∀ p ∈ a.table, lo ≤ p.2 ∧ p.2 ≤ up

/-- The mapper produced by `anon_uint64_new 0 9`. -/
def mk09 : AnonUint64 :=
  { table := [], list := [], state := .INIT, lower := 0, upper := 9, range := 10 }

/-- The mapper produced by `anon_uint64_new 3 9`. -/
def mk39 : AnonUint64 :=
  { table := [], list := [], state := .INIT, lower := 3, upper := 9, range := 7 }

/-- The mapper produced by `anon_uint64_new 0 99`. -/
def mk99 : AnonUint64 :=
  { table := [], list := [], state := .INIT, lower := 0, upper := 99, range := 100 }

/-- `mk09` after `anon_uint64_map` mapped input 5 to 0 with the identity
stream. -/
def cA1 : AnonUint64 :=
  { table := [(5, 0)], list := [0], state := .NON_LEX, lower := 0, upper := 9,
    range := 10 }

/-- `cA1` after a further `anon_uint64_set_used 7` call. -/
def cA1used : AnonUint64 :=
  { table := [(5, 0)], list := [7, 0], state := .NON_LEX, lower := 0, upper := 9,
    range := 10 }

/-- `cA1` after the calls `set_used 7` and `map 6` with the identity
stream at position 1. -/
def cA2 : AnonUint64 :=
  { table := [(6, 1), (5, 0)], list := [7, 1, 0], state := .NON_LEX, lower := 0,
    upper := 9, range := 10 }

/-- `mk39` after `anon_uint64_map` mapped input 5 to 3 with the identity
stream. -/
def cM39 : AnonUint64 :=
  { table := [(5, 3)], list := [3], state := .NON_LEX, lower := 3, upper := 9,
    range := 7 }

/-- `mk99` after one cache-miss `map` whose `RAND_bytes` stream yields
the constant 0. -/
def cM1 : AnonUint64 :=
  { table := [(5, 0)], list := [0], state := .NON_LEX, lower := 0, upper := 99,
    range := 100 }

/-- `mk99` after one cache-miss `map` whose `RAND_bytes` stream yields
the constant 1. -/
def cM2 : AnonUint64 :=
  { table := [(5, 1)], list := [1], state := .NON_LEX, lower := 0, upper := 99,
    range := 100 }

/-- A mapper in `INIT` whose used list `{0, …, 8, 3, 1}` was set with
`set_used` calls; range `[0, 9]`. -/
def lexA : AnonUint64 :=
  { table := [], list := [8, 3, 1], state := .INIT, lower := 0, upper := 9,
    range := 10 }

/-- `lexA` after lex finalization driven by the identity stream:
used inputs 1, 3, 8 got the images 0, 1, 2. -/
def lexFin : AnonUint64 :=
  { table := [(8, 2), (3, 1), (1, 0)], list := [], state := .LEX, lower := 0,
    upper := 9, range := 10 }

/-- A mapper with range `[0, 9]` whose used list holds the 11 values
`{0, …, 10}` — more than the range can fit. -/
def overA : AnonUint64 :=
  { table := [], list := [10, 9, 8, 7, 6, 5, 4, 3, 2, 1, 0], state := .INIT,
    lower := 0, upper := 9, range := 10 }

/-- An exhausted non-lex mapper: range `[0, 1]` and both values 0 and 1
already issued as images. -/
def exA : AnonUint64 :=
  { table := [(100, 0), (101, 1)], list := [1, 0], state := .NON_LEX, lower := 0,
    upper := 1, range := 2 }

/-- The mapper produced by `anon_uint64_new 0 (2^64 - 1)`: the computed
`range = upper - lower + 1` wraps to 0. -/
def cFull : AnonUint64 :=
  { table := [], list := [], state := .INIT, lower := 0, upper := W - 1,
    range := 0 }

/-- `mk09` after a single `set_used 3` call. -/
def c10A : AnonUint64 :=
  { table := [], list := [3], state := .INIT, lower := 0, upper := 9, range := 10 }

/-! ### Lemmas about `list_insert` -/

/-- A return value of 1 (`num` found) leaves the list unchanged. -/
theorem li_fst_one_snd (allocOk : Bool) (num : Nat) (l : List Nat)
    (h : (list_insert allocOk num l).1 = 1) : (list_insert allocOk num l).2 = l := by
  induction l with
  | nil => by_cases ha : allocOk <;> simp [list_insert, ha] at h
  | cons p rest ih =>
    by_cases h1 : num = p
    · simp [list_insert, h1]
    · by_cases h2 : num > p
      · by_cases ha : allocOk <;> simp [list_insert, h1, h2, ha] at h
      · simp only [list_insert, if_neg h1, if_neg h2] at h ⊢
        simp only [ih h]

/-- When `num` is absent, the return value is 0 on successful
allocation and -1 otherwise. -/
theorem li_not_mem_fst (allocOk : Bool) (num : Nat) (l : List Nat) (h : num ∉ l) :
    (list_insert allocOk num l).1 = if allocOk then 0 else -1 := by
  induction l with
  | nil => by_cases ha : allocOk <;> simp [list_insert, ha]
  | cons p rest ih =>
    have h1 : num ≠ p := fun e => h (by simp [e])
    have hr : num ∉ rest := fun hm => h (by simp [hm])
    by_cases h2 : num > p
    · by_cases ha : allocOk <;> simp [list_insert, h1, h2, ha]
    · simp [list_insert, h1, h2, ih hr]

/-- On a strictly descending list, inserting a member returns 1 and
leaves the list unchanged. -/
theorem li_mem_eq (allocOk : Bool) (num : Nat) (l : List Nat)
    (hs : l.Pairwise (· > ·)) (h : num ∈ l) :
    list_insert allocOk num l = (1, l) := by
  induction l with
  | nil => simp at h
  | cons p rest ih =>
    rcases List.mem_cons.mp h with h1 | h1
    · simp [list_insert, h1]
    · have hgt : p > num := (List.pairwise_cons.mp hs).1 num h1
      have h2 : num ≠ p := by omega
      have h3 : ¬(num > p) := by omega
      have h4 := ih (List.pairwise_cons.mp hs).2 h1
      simp [list_insert, h2, h3, h4]

/-- With allocation succeeding, `list_insert` returns 0 or 1. -/
theorem li_true_fst (num : Nat) (l : List Nat) :
    (list_insert true num l).1 = 0 ∨ (list_insert true num l).1 = 1 := by
  induction l with
  | nil => simp [list_insert]
  | cons p rest ih =>
    by_cases h1 : num = p
    · simp [list_insert, h1]
    · by_cases h2 : num > p
      · simp [list_insert, h1, h2]
      · simpa [list_insert, h1, h2] using ih

/-- With allocation succeeding, the resulting list holds exactly `num`
and the old elements. -/
theorem li_true_mem (num : Nat) (l : List Nat) (x : Nat) :
    x ∈ (list_insert true num l).2 ↔ x = num ∨ x ∈ l := by
  induction l with
  | nil => simp [list_insert]
  | cons p rest ih =>
    by_cases h1 : num = p
    · subst h1
      simp [list_insert]
    · by_cases h2 : num > p
      · simp [list_insert, h1, h2]
      · simp only [list_insert, if_neg h1, if_neg h2, List.mem_cons, ih]
        tauto

/-- Every element of the resulting list is `num` or an old element. -/
theorem li_snd_subset (allocOk : Bool) (num : Nat) (l : List Nat) (x : Nat)
    (h : x ∈ (list_insert allocOk num l).2) : x = num ∨ x ∈ l := by
  induction l with
  | nil =>
    by_cases ha : allocOk <;> simp [list_insert, ha] at h
    exact Or.inl h
  | cons p rest ih =>
    simp only [List.mem_cons]
    by_cases h1 : num = p
    · simp only [list_insert, if_pos h1, List.mem_cons] at h
      tauto
    · by_cases h2 : num > p
      · by_cases ha : allocOk <;> simp [list_insert, h1, h2, ha] at h <;> tauto
      · simp only [list_insert, if_neg h1, if_neg h2, List.mem_cons] at h
        rcases h with h | h
        · exact Or.inr (Or.inl h)
        · rcases ih h with h | h
          · exact Or.inl h
          · exact Or.inr (Or.inr h)

/-- A fresh successful insertion grows the length by one. -/
theorem li_fresh_len (num : Nat) (l : List Nat) (h : num ∉ l) :
    (list_insert true num l).2.length = l.length + 1 := by
  induction l with
  | nil => simp [list_insert]
  | cons p rest ih =>
    have h1 : num ≠ p := fun e => h (by simp [e])
    have hr : num ∉ rest := fun hm => h (by simp [hm])
    by_cases h2 : num > p
    · simp [list_insert, h1, h2]
    · simp [list_insert, h1, h2, ih hr]

/-- `list_insert` preserves strict descending sortedness. -/
theorem li_sorted (allocOk : Bool) (num : Nat) (l : List Nat)
    (hs : l.Pairwise (· > ·)) :
    (list_insert allocOk num l).2.Pairwise (· > ·) := by
  induction l with
  | nil => by_cases ha : allocOk <;> simp [list_insert, ha]
  | cons p rest ih =>
    rcases List.pairwise_cons.mp hs with ⟨hp, hrest⟩
    by_cases h1 : num = p
    · simpa [list_insert, h1] using hs
    · by_cases h2 : num > p
      · by_cases ha : allocOk
        · simp only [list_insert, if_neg h1, if_pos h2, if_pos ha]
          refine List.pairwise_cons.mpr ⟨?_, hs⟩
          intro b hb
          rcases List.mem_cons.mp hb with rfl | hb
          · exact h2
          · have := hp b hb; omega
        · simpa [list_insert, h1, h2, ha] using hs
      · simp only [list_insert, if_neg h1, if_neg h2]
        refine List.pairwise_cons.mpr ⟨?_, ih hrest⟩
        intro b hb
        rcases li_snd_subset allocOk num rest b hb with rfl | hb
        · omega
        · exact hp b hb

/-- Allocation failure leaves the list unchanged. -/
theorem li_false_snd (num : Nat) (l : List Nat) :
    (list_insert false num l).2 = l := by
  induction l with
  | nil => simp [list_insert]
  | cons p rest ih =>
    by_cases h1 : num = p
    · simp [list_insert, h1]
    · by_cases h2 : num > p <;> simp [list_insert, h1, h2, ih]

/-- Inserting a value larger than every element prepends it. -/
theorem li_gt_all (num : Nat) (l : List Nat) (h : ∀ x ∈ l, x < num) :
    list_insert true num l = (0, num :: l) := by
  cases l with
  | nil => simp [list_insert]
  | cons p rest =>
    have hp : p < num := h p (by simp)
    have h1 : num ≠ p := by omega
    simp [list_insert, h1, hp]

/-! ### Lemmas about `descList` and `generate_random_number` -/

/-- Elements of `descList lo c` are below `lo + c`. -/
theorem descList_mem (lo c x : Nat) (h : x ∈ descList lo c) : x < lo + c := by
  induction c with
  | zero => simp [descList] at h
  | succ c ih =>
    simp only [descList, List.mem_cons] at h
    rcases h with rfl | h
    · omega
    · have := ih h; omega

/-- `descList` is strictly descending. -/
theorem descList_sorted (lo c : Nat) : (descList lo c).Pairwise (· > ·) := by
  induction c with
  | zero => simp [descList]
  | succ c ih =>
    refine List.pairwise_cons.mpr ⟨?_, ih⟩
    intro b hb
    exact descList_mem lo c b hb

/-- When the stored `range` is nonzero, it equals `upper - lower + 1`
without wrap. -/
theorem range_eq (a : AnonUint64)
    (hrange : a.range = (a.upper - a.lower + 1) % W)
    (hlt : a.lower ≤ a.upper) (hW : a.upper < W) (h0 : a.range ≠ 0) :
    a.range = a.upper - a.lower + 1 := by
  rcases Nat.lt_or_ge (a.upper - a.lower + 1) W with h2 | h2
  · rw [hrange, Nat.mod_eq_of_lt h2]
  · have h3 : a.upper - a.lower + 1 = W := by omega
    rw [hrange, h3, Nat.mod_self] at h0
    omega

/-- A defined random draw lands in `[lower, upper]`. -/
theorem generate_some_range (r : Nat) (a : AnonUint64) (v : Nat)
    (hrange : a.range = (a.upper - a.lower + 1) % W)
    (hlt : a.lower ≤ a.upper) (hW : a.upper < W)
    (h : generate_random_number r a = some v) :
    a.lower ≤ v ∧ v ≤ a.upper := by
  unfold generate_random_number at h
  by_cases h0 : a.range = 0
  · simp [h0] at h
  · simp only [h0, if_false] at h
    have hR := range_eq a hrange hlt hW h0
    have hx : r % W % a.range < a.range := Nat.mod_lt _ (Nat.pos_of_ne_zero h0)
    have hxl : r % W % a.range + a.lower < W := by omega
    rw [Nat.mod_eq_of_lt hxl] at h
    simp only [Option.some.injEq] at h
    omega

/-- With the identity stream, the `j`-th raw draw below the range gives
`lower + j`. -/
theorem generate_id (a : AnonUint64) (j : Nat)
    (hrange : a.range = (a.upper - a.lower + 1) % W)
    (hlt : a.lower ≤ a.upper) (hW : a.upper < W)
    (hj : j < a.range) :
    generate_random_number j a = some (a.lower + j) := by
  have h0 : a.range ≠ 0 := by omega
  have hR := range_eq a hrange hlt hW h0
  have hjW : j < W := by omega
  have hjl : j + a.lower < W := by omega
  simp [generate_random_number, h0, Nat.mod_eq_of_lt hjW, Nat.mod_eq_of_lt hj,
    Nat.mod_eq_of_lt hjl, Nat.add_comm]

/-! ### Lemmas about `drawFresh` and `populate` -/

/-- A successful draw comes from `generate_random_number`. -/
theorem drawFresh_gen (g : Nat → Nat) (a : AnonUint64) (fuel i : Nat)
    (l : List Nat) (v i2 : Nat) (l2 : List Nat)
    (h : drawFresh g a fuel i l = some (v, i2, l2)) :
    ∃ r, generate_random_number r a = some v := by
  induction fuel generalizing i with
  | zero => simp [drawFresh] at h
  | succ fuel ih =>
    simp only [drawFresh] at h
    cases hg : generate_random_number (g i) a with
    | none => simp [hg] at h
    | some anum =>
      simp only [hg] at h
      by_cases h1 : (list_insert true anum l).1 = 1
      · rw [if_pos h1] at h
        exact ih (i + 1) h
      · rw [if_neg h1] at h
        simp only [Option.some.injEq, Prod.mk.injEq] at h
        obtain ⟨rfl, rfl, rfl⟩ := h
        exact ⟨g i, hg⟩

/-- A successful draw returns the insertion of the drawn value into the
input list, and that insertion was fresh (return value not 1). -/
theorem drawFresh_snd (g : Nat → Nat) (a : AnonUint64) (fuel i : Nat)
    (l : List Nat) (v i2 : Nat) (l2 : List Nat)
    (h : drawFresh g a fuel i l = some (v, i2, l2)) :
    l2 = (list_insert true v l).2 ∧ (list_insert true v l).1 ≠ 1 := by
  induction fuel generalizing i with
  | zero => simp [drawFresh] at h
  | succ fuel ih =>
    simp only [drawFresh] at h
    cases hg : generate_random_number (g i) a with
    | none => simp [hg] at h
    | some anum =>
      simp only [hg] at h
      by_cases h1 : (list_insert true anum l).1 = 1
      · rw [if_pos h1] at h
        exact ih (i + 1) h
      · rw [if_neg h1] at h
        simp only [Option.some.injEq, Prod.mk.injEq] at h
        obtain ⟨rfl, rfl, rfl⟩ := h
        exact ⟨rfl, h1⟩

/-- On a sorted list, a successfully drawn value was not yet present. -/
theorem drawFresh_not_mem (g : Nat → Nat) (a : AnonUint64) (fuel i : Nat)
    (l : List Nat) (v i2 : Nat) (l2 : List Nat) (hs : l.Pairwise (· > ·))
    (h : drawFresh g a fuel i l = some (v, i2, l2)) : v ∉ l := by
  intro hm
  exact (drawFresh_snd g a fuel i l v i2 l2 h).2
    (by rw [li_mem_eq true v l hs hm])

/-- When every value of `[lower, upper]` is already in the uniqueness
list, the re-draw loop can never succeed: it runs out of any fuel. -/
theorem drawFresh_full (g : Nat → Nat) (a : AnonUint64) (l : List Nat)
    (hrange : a.range = (a.upper - a.lower + 1) % W)
    (hlt : a.lower ≤ a.upper) (hW : a.upper < W)
    (hs : l.Pairwise (· > ·))
    (hfull : ∀ v, a.lower ≤ v → v ≤ a.upper → v ∈ l) :
    ∀ fuel i, drawFresh g a fuel i l = none := by
  intro fuel
  induction fuel with
  | zero => intro i; simp [drawFresh]
  | succ fuel ih =>
    intro i
    simp only [drawFresh]
    cases hg : generate_random_number (g i) a with
    | none => simp
    | some anum =>
      have hr := generate_some_range (g i) a anum hrange hlt hW hg
      have hm : anum ∈ l := hfull anum hr.1 hr.2
      have he := li_mem_eq true anum l hs hm
      simp [he, ih (i + 1)]

/-- A successful finalization loop keeps the hashlist sorted, grows it
by one element per used number, and fills it with generated draws. -/
theorem populate_ok (g : Nat → Nat) (a : AnonUint64) (fuel : Nat)
    (ps : List Nat) (count i : Nat) (hl : List Nat) (i2 : Nat) (hl2 : List Nat)
    (hhl : hl.Pairwise (· > ·))
    (h : populate g a fuel ps count i hl = .ok (i2, hl2)) :
    hl2.Pairwise (· > ·) ∧ hl2.length = hl.length + ps.length ∧
      ∀ x ∈ hl2, (∃ r, generate_random_number r a = some x) ∨ x ∈ hl := by
  induction ps generalizing count i hl with
  | nil =>
    simp only [populate, Except.ok.injEq, Prod.mk.injEq] at h
    obtain ⟨rfl, rfl⟩ := h
    exact ⟨hhl, by simp, fun x hx => Or.inr hx⟩
  | cons q ps ih =>
    simp only [populate] at h
    by_cases hc : count + 1 > (a.upper - a.lower + 1) % W
    · rw [if_pos hc] at h
      simp at h
    · rw [if_neg hc] at h
      cases hd : drawFresh g a fuel i hl with
      | none => simp [hd] at h
      | some t =>
        obtain ⟨v, iv, hlv⟩ := t
        simp only [hd] at h
        have hsnd := drawFresh_snd g a fuel i hl v iv hlv hd
        have hnm := drawFresh_not_mem g a fuel i hl v iv hlv hhl hd
        have hsort : hlv.Pairwise (· > ·) := by
          rw [hsnd.1]; exact li_sorted true v hl hhl
        have hlen : hlv.length = hl.length + 1 := by
          rw [hsnd.1]; exact li_fresh_len v hl hnm
        have hmem : ∀ x ∈ hlv, x = v ∨ x ∈ hl := by
          intro x hx
          rw [hsnd.1] at hx
          exact li_snd_subset true v hl x hx
        obtain ⟨h1, h2, h3⟩ := ih (count + 1) iv hlv hsort h
        refine ⟨h1, by simp only [h2, hlen, List.length_cons]; omega, ?_⟩
        intro x hx
        rcases h3 x hx with hgen | hx2
        · exact Or.inl hgen
        · rcases hmem x hx2 with rfl | hx3
          · exact Or.inl (drawFresh_gen g a fuel i hl x iv hlv hd)
          · exact Or.inr hx3

/-- When the used list is longer than the range, the finalization loop
never succeeds. -/
theorem populate_over (g : Nat → Nat) (a : AnonUint64) (fuel : Nat)
    (ps : List Nat) (count i : Nat) (hl : List Nat)
    (hle : count ≤ (a.upper - a.lower + 1) % W)
    (hgt : count + ps.length > (a.upper - a.lower + 1) % W) :
    isOk (populate g a fuel ps count i hl) = false := by
  induction ps generalizing count i hl with
  | nil =>
    exfalso
    simp only [List.length_nil] at hgt
    omega
  | cons q ps ih =>
    simp only [populate]
    by_cases hc : count + 1 > (a.upper - a.lower + 1) % W
    · simp [hc, isOk]
    · rw [if_neg hc]
      cases hd : drawFresh g a fuel i hl with
      | none => simp [isOk]
      | some t =>
        obtain ⟨v, iv, hlv⟩ := t
        exact ih (count + 1) iv hlv (by omega)
          (by simp only [List.length_cons] at hgt; omega)

/-- When the used list is longer than the range, the finalization loop
driven by the identity stream hits the fatal range check. -/
theorem populate_id (a : AnonUint64)
    (hrange : a.range = (a.upper - a.lower + 1) % W)
    (hlt : a.lower ≤ a.upper) (hW : a.upper < W) :
    ∀ ps count, count ≤ (a.upper - a.lower + 1) % W →
      count + ps.length > (a.upper - a.lower + 1) % W →
      populate id a 1 ps count count (descList a.lower count) =
        .error .resourceExhaustion := by
  intro ps
  induction ps with
  | nil =>
    intro count h1 h2
    exfalso
    simp only [List.length_nil] at h2
    omega
  | cons q ps ih =>
    intro count h1 h2
    by_cases hc : count + 1 > (a.upper - a.lower + 1) % W
    · simp [populate, hc]
    · have hcr : count < a.range := by rw [hrange]; omega
      have hgen : generate_random_number count a = some (a.lower + count) :=
        generate_id a count hrange hlt hW hcr
      have hins : list_insert true (a.lower + count) (descList a.lower count) =
          (0, (a.lower + count) :: descList a.lower count) := by
        apply li_gt_all
        intro x hx
        have := descList_mem a.lower count x hx
        omega
      have hdraw : drawFresh id a 1 count (descList a.lower count) =
          some (a.lower + count, count + 1, (a.lower + count) :: descList a.lower count) := by
        simp [drawFresh, hgen, hins]
      simp only [populate, if_neg hc, hdraw]
      have hdl : descList a.lower (count + 1) =
          (a.lower + count) :: descList a.lower count := rfl
      rw [← hdl]
      exact ih (count + 1) (by omega) (by simp only [List.length_cons] at h2; omega)

/-! ### Lemmas about `lh_retrieve` and zipped tables -/

/-- A retrieved pair is in the table. -/
theorem lh_retrieve_mem (t : List (Nat × Nat)) (num v : Nat)
    (h : lh_retrieve t num = some v) : (num, v) ∈ t := by
  induction t with
  | nil => simp [lh_retrieve] at h
  | cons p t ih =>
    obtain ⟨k, w⟩ := p
    by_cases hk : k = num
    · simp only [lh_retrieve, if_pos hk, Option.some.injEq] at h
      simp [hk, h]
    · simp only [lh_retrieve, if_neg hk] at h
      exact List.mem_cons_of_mem _ (ih h)

/-- Looking up a member of the key list of a zip of equal-length lists
succeeds with a value from the second list. -/
theorem lh_retrieve_zip_mem (l1 l2 : List Nat) (x : Nat)
    (hlen : l1.length = l2.length) (hx : x ∈ l1) :
    ∃ v, lh_retrieve (l1.zip l2) x = some v ∧ v ∈ l2 := by
  induction l1 generalizing l2 with
  | nil => simp at hx
  | cons p t1 ih =>
    cases l2 with
    | nil => simp at hlen
    | cons b t2 =>
      by_cases hpx : p = x
      · refine ⟨b, ?_, by simp⟩
        rw [List.zip_cons_cons]
        simp only [lh_retrieve, if_pos hpx]
      · have hx2 : x ∈ t1 := by
          rcases List.mem_cons.mp hx with rfl | h
          · exact absurd rfl hpx
          · exact h
        obtain ⟨v, hv, hvm⟩ := ih t2 (by simpa using hlen) hx2
        refine ⟨v, ?_, by simp [hvm]⟩
        rw [List.zip_cons_cons]
        simp only [lh_retrieve, if_neg hpx]
        exact hv

/-- Looking two keys `x < y` up in the zip of two strictly descending
equal-length lists yields images in the same strict order. -/
theorem zip_lookup_lt (l1 l2 : List Nat) (x y : Nat)
    (hs1 : l1.Pairwise (· > ·)) (hs2 : l2.Pairwise (· > ·))
    (hlen : l1.length = l2.length) (hx : x ∈ l1) (hy : y ∈ l1) (hxy : x < y) :
    ∃ vx vy, lh_retrieve (l1.zip l2) x = some vx ∧
      lh_retrieve (l1.zip l2) y = some vy ∧ vx < vy := by
  induction l1 generalizing l2 with
  | nil => simp at hx
  | cons p t1 ih =>
    cases l2 with
    | nil => simp at hlen
    | cons b t2 =>
      obtain ⟨hp1, ht1⟩ := List.pairwise_cons.mp hs1
      obtain ⟨hp2, ht2⟩ := List.pairwise_cons.mp hs2
      rcases List.mem_cons.mp hy with hyp | hy2
      · have hxp : ¬(p = x) := by omega
        have hx2 : x ∈ t1 := by
          rcases List.mem_cons.mp hx with hxep | h
          · omega
          · exact h
        obtain ⟨vx, hvx, hvxm⟩ := lh_retrieve_zip_mem t1 t2 x (by simpa using hlen) hx2
        refine ⟨vx, b, ?_, ?_, hp2 vx hvxm⟩
        · rw [List.zip_cons_cons]
          simp only [lh_retrieve, if_neg hxp]
          exact hvx
        · rw [List.zip_cons_cons]
          simp only [lh_retrieve]
          rw [if_pos hyp.symm]
      · have hpy : p > y := hp1 y hy2
        have hxp : ¬(p = x) := by omega
        have hpy2 : ¬(p = y) := by omega
        have hx2 : x ∈ t1 := by
          rcases List.mem_cons.mp hx with hxep | h
          · omega
          · exact h
        obtain ⟨vx, vy, hvx, hvy, hvlt⟩ := ih t2 ht1 ht2 (by simpa using hlen) hx2 hy2
        refine ⟨vx, vy, ?_, ?_, hvlt⟩
        · rw [List.zip_cons_cons]
          simp only [lh_retrieve, if_neg hxp]
          exact hvx
        · rw [List.zip_cons_cons]
          simp only [lh_retrieve, if_neg hpy2]
          exact hvy

/-! ### Lemmas about `anon_uint64_set_state` -/

/-- A successful transition to `NON_LEX` only sets the state field. -/
theorem set_state_nonlex (g : Nat → Nat) (fuel : Nat) (a : AnonUint64) (i : Nat)
    (a1 : AnonUint64) (i1 : Nat)
    (h : anon_uint64_set_state g fuel a .NON_LEX i = .ok (a1, i1)) :
    a1 = { a with state := .NON_LEX } ∧ i1 = i := by
  simp only [anon_uint64_set_state] at h
  by_cases h1 : a.state = .NON_LEX
  · rw [if_pos h1] at h
    simp only [Except.ok.injEq, Prod.mk.injEq] at h
    obtain ⟨rfl, rfl⟩ := h
    refine ⟨?_, rfl⟩
    cases a
    simp only [AnonUint64.mk.injEq]
    simp_all
  · rw [if_neg h1] at h
    by_cases h2 : a.state = .INIT
    · rw [if_pos h2] at h
      simp only [Except.ok.injEq, Prod.mk.injEq] at h
      exact ⟨h.1.symm, h.2.symm⟩
    · rw [if_neg h2] at h
      simp at h

/-- A successful transition to `LEX` either found the state already
`LEX` (no change) or finalized from `INIT`. -/
theorem set_state_lex_cases (g : Nat → Nat) (fuel : Nat) (a : AnonUint64)
    (i : Nat) (a1 : AnonUint64) (i1 : Nat)
    (h : anon_uint64_set_state g fuel a .LEX i = .ok (a1, i1)) :
    (a.state = .LEX ∧ a1 = a ∧ i1 = i) ∨
    (a.state = .INIT ∧ ∃ hashlist,
      populate g a fuel a.list 0 i [] = .ok (i1, hashlist) ∧
      a1 = { a with state := .LEX,
                    table := a.list.zip hashlist ++ a.table,
                    list := [] }) := by
  simp only [anon_uint64_set_state] at h
  by_cases h1 : a.state = .LEX
  · rw [if_pos h1] at h
    simp only [Except.ok.injEq, Prod.mk.injEq] at h
    exact Or.inl ⟨h1, h.1.symm, h.2.symm⟩
  · rw [if_neg h1] at h
    by_cases h2 : a.state = .INIT
    · rw [if_pos h2] at h
      cases hp : populate g a fuel a.list 0 i [] with
      | error e => simp [hp] at h
      | ok t =>
        obtain ⟨j, hashlist⟩ := t
        simp only [hp, Except.ok.injEq, Prod.mk.injEq] at h
        obtain ⟨rfl, rfl⟩ := h
        exact Or.inr ⟨h2, hashlist, rfl, rfl⟩
    · rw [if_neg h2] at h
      simp at h

/-! ### Case analysis of `anon_uint64_map` and `anon_uint64_map_lex` -/

/-- A successful `map` call is a table hit or a fresh cache-miss draw. -/
theorem map_cases (g : Nat → Nat) (fuel : Nat) (a : AnonUint64) (num i : Nat)
    (v : Nat) (a2 : AnonUint64) (i2 : Nat)
    (h : anon_uint64_map g fuel a num i = .ok (v, a2, i2)) :
    (lh_retrieve a.table num = some v ∧
      a2 = { a with state := .NON_LEX } ∧ i2 = i) ∨
    (lh_retrieve a.table num = none ∧ ∃ l2,
      drawFresh g { a with state := .NON_LEX } fuel i a.list = some (v, i2, l2) ∧
      a2 = { a with state := .NON_LEX,
                    list := l2,
                    table := (num, v) :: a.table }) := by
  unfold anon_uint64_map at h
  cases hss : anon_uint64_set_state g fuel a .NON_LEX i with
  | error e => simp [hss] at h
  | ok t =>
    obtain ⟨a1, i1⟩ := t
    obtain ⟨ha1, hi1⟩ := set_state_nonlex g fuel a i a1 i1 hss
    simp only [hss] at h
    rw [ha1, hi1] at h
    dsimp only at h
    cases hlook : lh_retrieve a.table num with
    | some hv =>
      simp only [hlook, Except.ok.injEq, Prod.mk.injEq] at h
      obtain ⟨rfl, rfl, rfl⟩ := h
      exact Or.inl ⟨rfl, rfl, rfl⟩
    | none =>
      simp only [hlook] at h
      cases hd : drawFresh g { a with state := AnonState.NON_LEX } fuel i a.list with
      | none => simp [hd] at h
      | some t =>
        obtain ⟨anum, i3, l3⟩ := t
        simp only [hd, Except.ok.injEq, Prod.mk.injEq] at h
        obtain ⟨rfl, rfl, rfl⟩ := h
        exact Or.inr ⟨rfl, l3, rfl, rfl⟩

/-- A successful `map_lex` call is a table hit in `LEX` state, or the
finalization from `INIT` followed by a table hit. -/
theorem maplex_cases (g : Nat → Nat) (fuel : Nat) (a : AnonUint64) (num i : Nat)
    (v : Nat) (a2 : AnonUint64) (i2 : Nat)
    (h : anon_uint64_map_lex g fuel a num i = .ok (v, a2, i2)) :
    (a.state = .LEX ∧ lh_retrieve a.table num = some v ∧ a2 = a ∧ i2 = i) ∨
    (a.state = .INIT ∧ ∃ hashlist,
      populate g a fuel a.list 0 i [] = .ok (i2, hashlist) ∧
      a2 = { a with state := .LEX,
                    table := a.list.zip hashlist ++ a.table,
                    list := [] } ∧
      lh_retrieve a2.table num = some v) := by
  unfold anon_uint64_map_lex at h
  cases hss : anon_uint64_set_state g fuel a .LEX i with
  | error e => simp [hss] at h
  | ok t =>
    obtain ⟨a1, i1⟩ := t
    simp only [hss] at h
    rcases set_state_lex_cases g fuel a i a1 i1 hss with ⟨hst, ha1, hi1⟩ |
      ⟨hst, hashlist, hpop, ha1⟩
    · rw [ha1, hi1] at h
      cases hlook : lh_retrieve a.table num with
      | some hv =>
        simp only [hlook, Except.ok.injEq, Prod.mk.injEq] at h
        obtain ⟨rfl, rfl, rfl⟩ := h
        exact Or.inl ⟨hst, rfl, rfl, rfl⟩
      | none => simp [hlook] at h
    · rw [ha1] at h
      dsimp only at h
      cases hlook : lh_retrieve (a.list.zip hashlist ++ a.table) num with
      | some hv =>
        simp only [hlook, Except.ok.injEq, Prod.mk.injEq] at h
        obtain ⟨rfl, rfl, rfl⟩ := h
        exact Or.inr ⟨hst, hashlist, hpop, rfl, hlook⟩
      | none => simp [hlook] at h

/-- A cached `map` call in `NON_LEX` state returns the cached image and
changes nothing. -/
theorem map_cached (g : Nat → Nat) (fuel : Nat) (a : AnonUint64) (num i v : Nat)
    (hst : a.state = .NON_LEX) (hlook : lh_retrieve a.table num = some v) :
    anon_uint64_map g fuel a num i = .ok (v, a, i) := by
  unfold anon_uint64_map
  simp only [anon_uint64_set_state, hst, if_pos rfl]
  simp [hlook]

/-- After a successful `map num` call, the state is `NON_LEX` and the
table caches the image of `num`. -/
theorem map_first (g : Nat → Nat) (fuel : Nat) (a : AnonUint64) (num i v : Nat)
    (a1 : AnonUint64) (i1 : Nat)
    (h : anon_uint64_map g fuel a num i = .ok (v, a1, i1)) :
    a1.state = .NON_LEX ∧ lh_retrieve a1.table num = some v := by
  rcases map_cases g fuel a num i v a1 i1 h with ⟨hl, ha, hi⟩ | ⟨hl, l2, hd, ha⟩
  · subst ha
    exact ⟨rfl, hl⟩
  · subst ha
    refine ⟨rfl, ?_⟩
    dsimp only
    simp [lh_retrieve]

/-- A successful `map` on a different input keeps the cached image of
`num` and the `NON_LEX` state. -/
theorem map_keep (g : Nat → Nat) (fuel : Nat) (a : AnonUint64)
    (n i num v w : Nat) (b : AnonUint64) (j : Nat)
    (hlook : lh_retrieve a.table num = some v)
    (h : anon_uint64_map g fuel a n i = .ok (w, b, j)) :
    b.state = .NON_LEX ∧ lh_retrieve b.table num = some v := by
  rcases map_cases g fuel a n i w b j h with ⟨hl, hb, hj⟩ | ⟨hl, l2, hd, hb⟩
  · subst hb
    exact ⟨rfl, hlook⟩
  · subst hb
    have hne : ¬(n = num) := by
      intro he
      rw [he] at hl
      simp [hl] at hlook
    refine ⟨rfl, ?_⟩
    dsimp only
    simp only [lh_retrieve, if_neg hne]
    exact hlook

/-- Any successful call keeps the `NON_LEX` state and the cached image. -/
theorem runOp_keep (g : Nat → Nat) (fuel : Nat) (a : AnonUint64) (i num v : Nat)
    (op : Op) (a2 : AnonUint64) (i2 : Nat)
    (hst : a.state = .NON_LEX) (hlook : lh_retrieve a.table num = some v)
    (h : runOp g fuel (a, i) op = .ok (a2, i2)) :
    a2.state = .NON_LEX ∧ lh_retrieve a2.table num = some v := by
  cases op with
  | setKey k =>
    simp only [runOp, anon_uint64_set_key, Except.ok.injEq, Prod.mk.injEq] at h
    obtain ⟨rfl, rfl⟩ := h
    exact ⟨hst, hlook⟩
  | setUsed n =>
    simp only [runOp, Except.ok.injEq, Prod.mk.injEq] at h
    obtain ⟨rfl, rfl⟩ := h
    unfold anon_uint64_set_used
    by_cases hc : (list_insert true n a.list).1 ≥ 0
    · simp only [if_pos hc]
      exact ⟨hst, hlook⟩
    · simp only [if_neg hc]
      exact ⟨hst, hlook⟩
  | mapOp n =>
    simp only [runOp] at h
    cases hm : anon_uint64_map g fuel a n i with
    | error e => simp [hm] at h
    | ok t =>
      obtain ⟨w, b, j⟩ := t
      simp only [hm, Except.ok.injEq, Prod.mk.injEq] at h
      obtain ⟨rfl, rfl⟩ := h
      exact map_keep g fuel a n i num v w b j hlook hm
  | mapLex n =>
    simp only [runOp] at h
    cases hm : anon_uint64_map_lex g fuel a n i with
    | error e => simp [hm] at h
    | ok t =>
      obtain ⟨w, b, j⟩ := t
      rcases maplex_cases g fuel a n i w b j hm with ⟨hst2, h2⟩ | ⟨hst2, h2⟩ <;>
        simp [hst] at hst2

/-- A successful call sequence keeps the `NON_LEX` state and the cached
image of `num`. -/
theorem runOps_keep (g : Nat → Nat) (fuel : Nat) (a : AnonUint64) (i num v : Nat)
    (ops : List Op) (a2 : AnonUint64) (i2 : Nat)
    (hst : a.state = .NON_LEX) (hlook : lh_retrieve a.table num = some v)
    (h : runOps g fuel (a, i) ops = .ok (a2, i2)) :
    a2.state = .NON_LEX ∧ lh_retrieve a2.table num = some v := by
  induction ops generalizing a i with
  | nil =>
    simp only [runOps, Except.ok.injEq, Prod.mk.injEq] at h
    obtain ⟨rfl, rfl⟩ := h
    exact ⟨hst, hlook⟩
  | cons op ops ih =>
    simp only [runOps] at h
    cases ho : runOp g fuel (a, i) op with
    | error e => simp [ho] at h
    | ok s2 =>
      obtain ⟨b, j⟩ := s2
      simp only [ho] at h
      obtain ⟨hbs, hbl⟩ := runOp_keep g fuel a i num v op b j hst hlook ho
      exact ih b j hbs hbl h

/-! ### Preservation of `RangeInv` -/

/-- `set_used` does not touch the table or the bound fields. -/
theorem setused_range (lo up : Nat) (a : AnonUint64) (num : Nat) (allocOk : Bool)
    (hinv : RangeInv lo up a) :
    RangeInv lo up (anon_uint64_set_used allocOk a num).2 := by
  obtain ⟨h1, h2, h3, h4⟩ := hinv
  unfold anon_uint64_set_used
  by_cases hc : (list_insert allocOk num a.list).1 ≥ 0
  · simp only [if_pos hc]
    exact ⟨h1, h2, h3, h4⟩
  · simp only [if_neg hc]
    exact ⟨h1, h2, h3, h4⟩

/-- A successful `map` keeps the invariant and outputs inside the
range. -/
theorem map_range (g : Nat → Nat) (fuel : Nat) (lo up : Nat) (a : AnonUint64)
    (num i v : Nat) (a2 : AnonUint64) (i2 : Nat)
    (hlt : lo ≤ up) (hW : up < W) (hinv : RangeInv lo up a)
    (h : anon_uint64_map g fuel a num i = .ok (v, a2, i2)) :
    (lo ≤ v ∧ v ≤ up) ∧ RangeInv lo up a2 := by
  obtain ⟨h1, h2, h3, h4⟩ := hinv
  rcases map_cases g fuel a num i v a2 i2 h with ⟨hl, ha, hi⟩ | ⟨hl, l2, hd, ha⟩
  · have hv := h4 (num, v) (lh_retrieve_mem a.table num v hl)
    subst ha
    exact ⟨hv, h1, h2, h3, h4⟩
  · obtain ⟨r, hr⟩ := drawFresh_gen g { a with state := AnonState.NON_LEX }
      fuel i a.list v i2 l2 hd
    have hrr : a.range = (a.upper - a.lower + 1) % W := by rw [h1, h2, h3]
    have hll : a.lower ≤ a.upper := by rw [h1, h2]; exact hlt
    have hWW : a.upper < W := by rw [h2]; exact hW
    have hv : a.lower ≤ v ∧ v ≤ a.upper :=
      generate_some_range r { a with state := AnonState.NON_LEX } v hrr hll hWW hr
    subst ha
    refine ⟨⟨by omega, by omega⟩, h1, h2, h3, ?_⟩
    intro p hp
    rcases List.mem_cons.mp hp with rfl | hp2
    · constructor <;> dsimp only <;> omega
    · exact h4 p hp2

/-- A successful `map_lex` keeps the invariant and outputs inside the
range. -/
theorem maplex_range (g : Nat → Nat) (fuel : Nat) (lo up : Nat) (a : AnonUint64)
    (num i v : Nat) (a2 : AnonUint64) (i2 : Nat)
    (hlt : lo ≤ up) (hW : up < W) (hinv : RangeInv lo up a)
    (h : anon_uint64_map_lex g fuel a num i = .ok (v, a2, i2)) :
    (lo ≤ v ∧ v ≤ up) ∧ RangeInv lo up a2 := by
  obtain ⟨h1, h2, h3, h4⟩ := hinv
  rcases maplex_cases g fuel a num i v a2 i2 h with ⟨hst, hl, ha, hi⟩ |
    ⟨hst, hashlist, hpop, ha, hl⟩
  · have hv := h4 (num, v) (lh_retrieve_mem a.table num v hl)
    subst ha
    exact ⟨hv, h1, h2, h3, h4⟩
  · have hmemgen :=
      (populate_ok g a fuel a.list 0 i [] i2 hashlist (by simp) hpop).2.2
    have hrr : a.range = (a.upper - a.lower + 1) % W := by rw [h1, h2, h3]
    have hll : a.lower ≤ a.upper := by rw [h1, h2]; exact hlt
    have hWW : a.upper < W := by rw [h2]; exact hW
    have htab2 : ∀ p ∈ a.list.zip hashlist ++ a.table, lo ≤ p.2 ∧ p.2 ≤ up := by
      intro p hp
      obtain ⟨pn, pv⟩ := p
      rcases List.mem_append.mp hp with hp | hp
      · have hmem := (List.of_mem_zip hp).2
        rcases hmemgen pv hmem with ⟨r, hr⟩ | hfalse
        · have := generate_some_range r a pv hrr hll hWW hr
          constructor <;> dsimp only <;> omega
        · simp at hfalse
      · exact h4 (pn, pv) hp
    subst ha
    refine ⟨?_, h1, h2, h3, htab2⟩
    exact htab2 (num, v) (lh_retrieve_mem _ num v hl)

/-- Any successful call preserves `RangeInv`. -/
theorem runOp_range (g : Nat → Nat) (fuel : Nat) (lo up : Nat) (a : AnonUint64)
    (i : Nat) (op : Op) (a2 : AnonUint64) (i2 : Nat)
    (hlt : lo ≤ up) (hW : up < W) (hinv : RangeInv lo up a)
    (h : runOp g fuel (a, i) op = .ok (a2, i2)) : RangeInv lo up a2 := by
  cases op with
  | setKey k =>
    simp only [runOp, anon_uint64_set_key, Except.ok.injEq, Prod.mk.injEq] at h
    obtain ⟨rfl, rfl⟩ := h
    exact hinv
  | setUsed n =>
    simp only [runOp, Except.ok.injEq, Prod.mk.injEq] at h
    obtain ⟨rfl, rfl⟩ := h
    exact setused_range lo up a n true hinv
  | mapOp n =>
    simp only [runOp] at h
    cases hm : anon_uint64_map g fuel a n i with
    | error e => simp [hm] at h
    | ok t =>
      obtain ⟨w, b, j⟩ := t
      simp only [hm, Except.ok.injEq, Prod.mk.injEq] at h
      obtain ⟨rfl, rfl⟩ := h
      exact (map_range g fuel lo up a n i w b j hlt hW hinv hm).2
  | mapLex n =>
    simp only [runOp] at h
    cases hm : anon_uint64_map_lex g fuel a n i with
    | error e => simp [hm] at h
    | ok t =>
      obtain ⟨w, b, j⟩ := t
      simp only [hm, Except.ok.injEq, Prod.mk.injEq] at h
      obtain ⟨rfl, rfl⟩ := h
      exact (maplex_range g fuel lo up a n i w b j hlt hW hinv hm).2

/-- A successful call sequence preserves `RangeInv`. -/
theorem runOps_range (g : Nat → Nat) (fuel : Nat) (lo up : Nat) (a : AnonUint64)
    (i : Nat) (ops : List Op) (a2 : AnonUint64) (i2 : Nat)
    (hlt : lo ≤ up) (hW : up < W) (hinv : RangeInv lo up a)
    (h : runOps g fuel (a, i) ops = .ok (a2, i2)) : RangeInv lo up a2 := by
  induction ops generalizing a i with
  | nil =>
    simp only [runOps, Except.ok.injEq, Prod.mk.injEq] at h
    obtain ⟨rfl, rfl⟩ := h
    exact hinv
  | cons op ops ih =>
    simp only [runOps] at h
    cases ho : runOp g fuel (a, i) op with
    | error e => simp [ho] at h
    | ok s2 =>
      obtain ⟨b, j⟩ := s2
      simp only [ho] at h
      exact ih b j (runOp_range g fuel lo up a i op b j hlt hW hinv ho) h

/-! ### Preservation of the sorted used-list invariant -/

/-- Any successful call keeps the internal list strictly descending. -/
theorem runOp_sorted (g : Nat → Nat) (fuel : Nat) (a : AnonUint64) (i : Nat)
    (op : Op) (a2 : AnonUint64) (i2 : Nat)
    (hs : a.list.Pairwise (· > ·))
    (h : runOp g fuel (a, i) op = .ok (a2, i2)) :
    a2.list.Pairwise (· > ·) := by
  cases op with
  | setKey k =>
    simp only [runOp, anon_uint64_set_key, Except.ok.injEq, Prod.mk.injEq] at h
    obtain ⟨rfl, rfl⟩ := h
    exact hs
  | setUsed n =>
    simp only [runOp, Except.ok.injEq, Prod.mk.injEq] at h
    obtain ⟨rfl, rfl⟩ := h
    unfold anon_uint64_set_used
    by_cases hc : (list_insert true n a.list).1 ≥ 0
    · simp only [if_pos hc]
      exact li_sorted true n a.list hs
    · simp only [if_neg hc]
      exact hs
  | mapOp n =>
    simp only [runOp] at h
    cases hm : anon_uint64_map g fuel a n i with
    | error e => simp [hm] at h
    | ok t =>
      obtain ⟨w, b, j⟩ := t
      simp only [hm, Except.ok.injEq, Prod.mk.injEq] at h
      obtain ⟨rfl, rfl⟩ := h
      rcases map_cases g fuel a n i w b j hm with ⟨hl, hb, hj⟩ | ⟨hl, l2, hd, hb⟩
      · subst hb
        exact hs
      · subst hb
        have hsnd := (drawFresh_snd g { a with state := AnonState.NON_LEX }
          fuel i a.list w j l2 hd).1
        dsimp only
        rw [hsnd]
        exact li_sorted true w a.list hs
  | mapLex n =>
    simp only [runOp] at h
    cases hm : anon_uint64_map_lex g fuel a n i with
    | error e => simp [hm] at h
    | ok t =>
      obtain ⟨w, b, j⟩ := t
      simp only [hm, Except.ok.injEq, Prod.mk.injEq] at h
      obtain ⟨rfl, rfl⟩ := h
      rcases maplex_cases g fuel a n i w b j hm with ⟨hst, hl, hb, hj⟩ |
        ⟨hst, hashlist, hpop, hb, hl⟩
      · subst hb
        exact hs
      · subst hb
        simp

/-- A successful call sequence keeps the internal list strictly
descending. -/
theorem runOps_sorted (g : Nat → Nat) (fuel : Nat) (a : AnonUint64) (i : Nat)
    (ops : List Op) (a2 : AnonUint64) (i2 : Nat)
    (hs : a.list.Pairwise (· > ·))
    (h : runOps g fuel (a, i) ops = .ok (a2, i2)) :
    a2.list.Pairwise (· > ·) := by
  induction ops generalizing a i with
  | nil =>
    simp only [runOps, Except.ok.injEq, Prod.mk.injEq] at h
    obtain ⟨rfl, rfl⟩ := h
    exact hs
  | cons op ops ih =>
    simp only [runOps] at h
    cases ho : runOp g fuel (a, i) op with
    | error e => simp [ho] at h
    | ok s2 =>
      obtain ⟨b, j⟩ := s2
      simp only [ho] at h
      exact ih b j (runOp_sorted g fuel a i op b j hs ho) h

/-! ### Claim theorems -/

/-- Claim C1: in lex mode, for every pair of used inputs `x < y` the
outputs satisfy `map_lex(x) < map_lex(y)` — the finalization pairs the
k-th smallest used input with the k-th smallest drawn image.  Stated for
a mapper still in `INIT` whose used list was built by `set_used` (hence
strictly descending, empty table); the two `map_lex` calls run in
sequence, the first one finalizing. -/
theorem c1_maplex_order (g : Nat → Nat) (fuel : Nat) (a : AnonUint64)
    (x y i : Nat) (vx : Nat) (a1 : AnonUint64) (i1 : Nat)
    (vy : Nat) (a2 : AnonUint64) (i2 : Nat)
    (hst : a.state = .INIT) (htb : a.table = [])
    (hs : a.list.Pairwise (· > ·))
    (hx : x ∈ a.list) (hy : y ∈ a.list) (hxy : x < y)
    (h1 : anon_uint64_map_lex g fuel a x i = .ok (vx, a1, i1))
    (h2 : anon_uint64_map_lex g fuel a1 y i1 = .ok (vy, a2, i2)) :
    vx < vy := by
  rcases maplex_cases g fuel a x i vx a1 i1 h1 with ⟨hst1, _, _, _⟩ |
    ⟨_, hashlist, hpop, ha1, hl1⟩
  · rw [hst] at hst1
    simp at hst1
  · obtain ⟨hsort, hlen, _⟩ :=
      populate_ok g a fuel a.list 0 i [] i1 hashlist (by simp) hpop
    obtain ⟨wx, wy, hwx, hwy, hwlt⟩ := zip_lookup_lt a.list hashlist x y hs hsort
      (by simpa using hlen.symm) hx hy hxy
    rw [ha1] at hl1
    dsimp only at hl1
    rw [htb, List.append_nil] at hl1
    rw [hwx] at hl1
    injection hl1 with hv1
    rcases maplex_cases g fuel a1 y i1 vy a2 i2 h2 with ⟨hst2, hl2, _, _⟩ |
      ⟨hst2, _, _, _, _⟩
    · rw [ha1] at hl2
      dsimp only at hl2
      rw [htb, List.append_nil] at hl2
      rw [hwy] at hl2
      injection hl2 with hv2
      omega
    · rw [ha1] at hst2
      dsimp only at hst2
      simp at hst2

/-- Claim C1 witness: on the used set `{8, 3, 1}` with range `[0, 9]`
and the identity stream, `map_lex 1 = 0 < 1 = map_lex 3`. -/
theorem c1_witness : (0 : Nat) < 1 :=
  c1_maplex_order id 2 lexA 1 3 0 0 lexFin 3 1 lexFin 3 rfl rfl
    (by decide) (by decide) (by decide) (by decide) rfl rfl

/-- Claim C2: the code ignores the key — `anon_uint64_set_key` is a
no-op — and `map` outputs come from the ambient `RAND_bytes` stream, so
two mappers configured with the same key 42 and given the same input 5
return different outputs (0 and 1) as soon as their system randomness
differs.  Outputs are not a function of key and call sequence. -/
theorem c2_key_ignored :
    (∀ (a : AnonUint64) (k : Nat), anon_uint64_set_key a k = a) ∧
    anon_uint64_map (fun _ => 0) 1 (anon_uint64_set_key mk99 42) 5 0 =
      .ok (0, cM1, 1) ∧
    anon_uint64_map (fun _ => 1) 1 (anon_uint64_set_key mk99 42) 5 0 =
      .ok (1, cM2, 1) ∧
    (0 : Nat) ≠ 1 :=
  ⟨fun _ _ => rfl, rfl, rfl, by decide⟩

/-- Claim C3 counterexample: after an actual `map` call (state
`NON_LEX`), `set_used 7` does not fail — it returns 0 (success) and even
inserts 7 into the internal list. -/
theorem c3_counterexample :
    anon_uint64_map id 4 mk09 5 0 = .ok (0, cA1, 1) ∧
    anon_uint64_set_used true cA1 7 = (0, cA1used) :=
  ⟨rfl, rfl⟩

/-- Claim C3 (amended): after the first `map` the state is `NON_LEX` and
any `map_lex` fails the `assert(a->state == INIT)`; after the first
`map_lex` the state is `LEX` and any `map` fails the same assert; but
`set_used` after either mapping operation succeeds (returns 0) and
leaves the state unchanged, because `anon_uint64_set_state(a, INIT)`
returns 0 without any check. -/
theorem c3_mode_lock (g : Nat → Nat) (fuel : Nat) (a : AnonUint64)
    (num i : Nat) :
    (a.state = .NON_LEX → anon_uint64_map_lex g fuel a num i = .error .assertFail) ∧
    (a.state = .LEX → anon_uint64_map g fuel a num i = .error .assertFail) ∧
    ((a.state = .NON_LEX ∨ a.state = .LEX) →
      (anon_uint64_set_used true a num).1 = 0 ∧
      (anon_uint64_set_used true a num).2.state = a.state) := by
  refine ⟨?_, ?_, ?_⟩
  · intro hst
    simp [anon_uint64_map_lex, anon_uint64_set_state, hst]
  · intro hst
    simp [anon_uint64_map, anon_uint64_set_state, hst]
  · intro _
    rcases li_true_fst num a.list with h | h <;>
      simp [anon_uint64_set_used, h]

/-- Claim C3 witness: on the concrete post-`map` state `cA1`, `map_lex`
fails with the assertion and `set_used` returns 0. -/
theorem c3_witness :
    anon_uint64_map_lex id 1 cA1 5 0 = .error .assertFail ∧
    (anon_uint64_set_used true cA1 7).1 = 0 :=
  ⟨(c3_mode_lock id 1 cA1 5 0).1 rfl,
   ((c3_mode_lock id 1 cA1 5 0).2.2 (Or.inl rfl)).1⟩

/-- Claim C4 counterexample: with range `[0, 1]` exhausted (both images
issued) and the fresh input 5, `anon_uint64_map` neither succeeds nor
reports a range-exhaustion error — it is still inside the re-draw loop
after 6 iterations. -/
theorem c4_counterexample :
    isOk (anon_uint64_map id 6 exA 5 0) = false ∧
    anon_uint64_map id 6 exA 5 0 ≠ Except.error AnonErr.resourceExhaustion := by
  constructor
  · rfl
  · intro h
    rw [show anon_uint64_map id 6 exA 5 0 = Except.error AnonErr.fuelOut from rfl] at h
    simp at h

/-- Claim C4 (amended): when the mapper has already issued all
`range = upper - lower + 1` distinct images and a fresh input arrives,
the re-draw loop never terminates: under every retry bound the call is
still re-drawing (modelled as fuel exhaustion), and no range-exhaustion
error is ever reported — the code stalls instead of failing. -/
theorem c4_map_exhausted (g : Nat → Nat) (fuel : Nat) (a : AnonUint64)
    (num i : Nat)
    (hrange : a.range = (a.upper - a.lower + 1) % W)
    (hlt : a.lower ≤ a.upper) (hW : a.upper < W)
    (hst : a.state = .NON_LEX)
    (hs : a.list.Pairwise (· > ·))
    (hfull : ∀ v, a.lower ≤ v → v ≤ a.upper → v ∈ a.list)
    (hmiss : lh_retrieve a.table num = none) :
    anon_uint64_map g fuel a num i = .error .fuelOut := by
  unfold anon_uint64_map
  simp only [anon_uint64_set_state, hst]
  simp [hmiss, drawFresh_full g a a.list hrange hlt hW hs hfull fuel i]

/-- Claim C4 witness: the exhausted mapper `exA` with fresh input 5
exhausts any fuel (here 3) without reporting an error. -/
theorem c4_witness : anon_uint64_map id 3 exA 5 0 = .error .fuelOut :=
  c4_map_exhausted id 3 exA 5 0 rfl (by decide) (by decide) rfl (by decide)
    (fun v h0 h1 => by
      have h2 : v ≤ 1 := h1
      interval_cases v <;> decide)
    rfl

/-- Claim C5: the CLI `uint64` subcommand parses `argv[0]` as `lower`
and `argv[1]` as `upper`, but then opens `argv[1]` — the upper bound —
as the input file instead of the third positional argument
`"data.txt"`. -/
theorem c5_cli_file_argument :
    cmd_uint64_args ["0", "99", "data.txt"] = some (0, 99, "99") ∧
    ("99" : String) ≠ "data.txt" :=
  ⟨by decide, by decide⟩

/-- Claim C6: range containment — for a mapper created with
`lower ≤ upper` (uint64 bounds), after any successful call sequence,
every value returned by `anon_uint64_map` or `anon_uint64_map_lex` lies
in `[lower, upper]`. -/
theorem c6_range_containment (g : Nat → Nat) (fuel : Nat) (lower upper : Nat)
    (a0 : AnonUint64) (ops : List Op) (a : AnonUint64) (i num : Nat)
    (hW : upper < W)
    (hnew : anon_uint64_new lower upper = some a0)
    (hrun : runOps g fuel (a0, 0) ops = .ok (a, i)) :
    (∀ v a2 i2, anon_uint64_map g fuel a num i = .ok (v, a2, i2) →
      lower ≤ v ∧ v ≤ upper) ∧
    (∀ v a2 i2, anon_uint64_map_lex g fuel a num i = .ok (v, a2, i2) →
      lower ≤ v ∧ v ≤ upper) := by
  have hlt : lower ≤ upper := by
    by_contra hc
    simp [anon_uint64_new, hc] at hnew
  have hinv0 : RangeInv lower upper a0 := by
    unfold anon_uint64_new at hnew
    rw [if_pos hlt] at hnew
    injection hnew with hnew
    rw [← hnew]
    exact ⟨rfl, rfl, rfl, by simp⟩
  have hinv := runOps_range g fuel lower upper a0 0 ops a i hlt hW hinv0 hrun
  exact ⟨fun v a2 i2 hmap =>
      (map_range g fuel lower upper a num i v a2 i2 hlt hW hinv hmap).1,
    fun v a2 i2 hmap =>
      (maplex_range g fuel lower upper a num i v a2 i2 hlt hW hinv hmap).1⟩

/-- Claim C6 witness: for a mapper created with bounds `[3, 9]` and the
identity stream, the first `map` output 3 lies in the range. -/
theorem c6_witness : (3 : Nat) ≤ 3 ∧ (3 : Nat) ≤ 9 :=
  (c6_range_containment id 2 3 9 mk39 [] mk39 0 5 (by decide) rfl rfl).1
    3 cM39 1 rfl

/-- Claim C7: lex finalization is fatal whenever the number of distinct
used inputs exceeds `range = upper - lower + 1`: no stream or retry
bound lets `map_lex` return a mapping, and with an adequate stream (the
identity) the failure is precisely the resource-exhaustion abort of the
`count > upper - lower + 1` check. -/
theorem c7_lex_overflow (a : AnonUint64) (num : Nat)
    (hst : a.state = .INIT)
    (hrange : a.range = (a.upper - a.lower + 1) % W)
    (hlt : a.lower ≤ a.upper) (hW : a.upper < W)
    (hover : a.list.length > (a.upper - a.lower + 1) % W) :
    (∀ g fuel i, isOk (anon_uint64_map_lex g fuel a num i) = false) ∧
    anon_uint64_map_lex id 1 a num 0 = .error .resourceExhaustion := by
  constructor
  · intro g fuel i
    unfold anon_uint64_map_lex
    cases hss : anon_uint64_set_state g fuel a .LEX i with
    | error e => simp [isOk]
    | ok t =>
      obtain ⟨a1, i1⟩ := t
      rcases set_state_lex_cases g fuel a i a1 i1 hss with ⟨hst2, _, _⟩ |
        ⟨_, hashlist, hpop, _⟩
      · rw [hst] at hst2
        simp at hst2
      · have hno := populate_over g a fuel a.list 0 i [] (Nat.zero_le _) (by omega)
        rw [hpop] at hno
        simp [isOk] at hno
  · unfold anon_uint64_map_lex
    have hp0 := populate_id a hrange hlt hW a.list 0 (Nat.zero_le _) (by omega)
    rw [show descList a.lower 0 = [] from rfl] at hp0
    simp only [anon_uint64_set_state, hst]
    simp [hp0]

/-- Claim C7 witness: with `lower = 0`, `upper = 9` and the eleven used
values `{0, …, 10}`, the first `map_lex` call fails with the
resource-exhaustion abort instead of returning a mapping. -/
theorem c7_witness :
    isOk (anon_uint64_map_lex id 1 overA 5 0) = false ∧
    anon_uint64_map_lex id 1 overA 5 0 = .error .resourceExhaustion :=
  ⟨(c7_lex_overflow overA 5 rfl rfl (by decide) (by decide) (by decide)).1 id 1 0,
   (c7_lex_overflow overA 5 rfl rfl (by decide) (by decide) (by decide)).2⟩

/-- Claim C8: idempotence of `map` — once `map num` has returned `v`,
any successful sequence of further calls on the same mapper leaves the
cached image intact, and `map num` returns `v` again (without changing
the mapper). -/
theorem c8_map_idempotent (g : Nat → Nat) (fuel : Nat) (a : AnonUint64)
    (num i v : Nat) (a1 : AnonUint64) (i1 : Nat) (ops : List Op)
    (a2 : AnonUint64) (i2 : Nat)
    (h1 : anon_uint64_map g fuel a num i = .ok (v, a1, i1))
    (hops : runOps g fuel (a1, i1) ops = .ok (a2, i2)) :
    anon_uint64_map g fuel a2 num i2 = .ok (v, a2, i2) := by
  obtain ⟨hs1, hl1⟩ := map_first g fuel a num i v a1 i1 h1
  obtain ⟨hs2, hl2⟩ := runOps_keep g fuel a1 i1 num v ops a2 i2 hs1 hl1 hops
  exact map_cached g fuel a2 num i2 v hs2 hl2

/-- Claim C8 witness: `map 5 = 0` on a fresh `[0, 9]` mapper; after
`set_used 7` and `map 6`, the call `map 5` again returns 0 and leaves
the mapper unchanged. -/
theorem c8_witness : anon_uint64_map id 2 cA2 5 2 = .ok (0, cA2, 2) :=
  c8_map_idempotent id 2 mk09 5 0 0 cA1 1 [Op.setUsed 7, Op.mapOp 6] cA2 2
    rfl rfl

/-- Claim C9 counterexample: the precondition `lower ≤ upper` does not
make the modulus nonzero — `anon_uint64_new 0 (2^64 - 1)` accepts its
arguments and stores `range = 0` (the 64-bit computation
`upper - lower + 1` wraps), so the first cache-miss `map` would reduce
modulo zero. -/
theorem c9_counterexample :
    anon_uint64_new 0 (W - 1) = some cFull ∧ cFull.range = 0 ∧ 0 ≤ W - 1 :=
  ⟨rfl, rfl, Nat.zero_le _⟩

/-- Claim C9 (amended): under `lower ≤ upper < 2^64` the stored range
`(upper - lower + 1) mod 2^64` is nonzero — and the reduction in
`generate_random_number` well-defined — except in the single corner
case `lower = 0, upper = 2^64 - 1`, where it wraps to zero. -/
theorem c9_range_nonzero (lower upper : Nat) (a : AnonUint64)
    (hW : upper < W) (hcorner : ¬(lower = 0 ∧ upper = W - 1))
    (hnew : anon_uint64_new lower upper = some a) : a.range ≠ 0 := by
  have hlt : lower ≤ upper := by
    by_contra hc
    simp [anon_uint64_new, hc] at hnew
  unfold anon_uint64_new at hnew
  rw [if_pos hlt] at hnew
  injection hnew with hnew
  have hr : a.range = (upper - lower + 1) % W := by rw [← hnew]
  rcases Nat.lt_or_ge (upper - lower + 1) W with h2 | h2
  · rw [Nat.mod_eq_of_lt h2] at hr
    omega
  · exfalso
    apply hcorner
    have h3 : upper - lower + 1 = W := by omega
    omega

/-- Claim C9 witness: the mapper `anon_uint64_new 0 9` has nonzero
range. -/
theorem c9_witness : mk09.range ≠ 0 :=
  c9_range_nonzero 0 9 mk09 (by decide) (by decide) rfl

/-- Claim C10: `list_insert` keeps the internal list strictly descending
(hence duplicate-free); on a sorted list it returns 1 exactly when the
value is present (list unchanged), 0 exactly on a fresh successful
insertion (the result holding exactly the old elements plus the new
value), and -1 exactly on allocation failure (list unchanged); and on
every mapper reachable from `anon_uint64_new` by successful calls the
internal list is strictly descending. -/
theorem c10_list_invariant :
    (∀ (allocOk : Bool) (num : Nat) (l : List Nat), l.Pairwise (· > ·) →
      ((list_insert allocOk num l).2.Pairwise (· > ·) ∧
       ((list_insert allocOk num l).1 = 1 ↔ num ∈ l) ∧
       ((list_insert allocOk num l).1 = 1 → (list_insert allocOk num l).2 = l) ∧
       ((list_insert allocOk num l).1 = 0 ↔ num ∉ l ∧ allocOk = true) ∧
       ((list_insert allocOk num l).1 = 0 →
         ∀ x, x ∈ (list_insert allocOk num l).2 ↔ x = num ∨ x ∈ l) ∧
       ((list_insert allocOk num l).1 = -1 ↔ num ∉ l ∧ allocOk = false) ∧
       ((list_insert allocOk num l).1 = -1 →
         (list_insert allocOk num l).2 = l))) ∧
    (∀ (g : Nat → Nat) (fuel lower upper : Nat) (a0 : AnonUint64)
      (ops : List Op) (a : AnonUint64) (i : Nat),
      anon_uint64_new lower upper = some a0 →
      runOps g fuel (a0, 0) ops = .ok (a, i) →
      a.list.Pairwise (· > ·)) := by
  constructor
  · intro allocOk num l hsl
    have hfst1 : (list_insert allocOk num l).1 = 1 ↔ num ∈ l := by
      constructor
      · intro h
        by_contra hm
        rw [li_not_mem_fst allocOk num l hm] at h
        by_cases ha : allocOk <;> simp [ha] at h
      · intro hm
        rw [li_mem_eq allocOk num l hsl hm]
    have hfst0 : (list_insert allocOk num l).1 = 0 ↔ num ∉ l ∧ allocOk = true := by
      constructor
      · intro h
        have hm : num ∉ l := by
          intro hm
          rw [li_mem_eq allocOk num l hsl hm] at h
          simp at h
        refine ⟨hm, ?_⟩
        rw [li_not_mem_fst allocOk num l hm] at h
        by_cases ha : allocOk
        · exact ha
        · simp [ha] at h
      · rintro ⟨hm, ha⟩
        subst ha
        rw [li_not_mem_fst true num l hm]
        simp
    have hfstm1 : (list_insert allocOk num l).1 = -1 ↔ num ∉ l ∧ allocOk = false := by
      constructor
      · intro h
        have hm : num ∉ l := by
          intro hm
          rw [li_mem_eq allocOk num l hsl hm] at h
          simp at h
        refine ⟨hm, ?_⟩
        rw [li_not_mem_fst allocOk num l hm] at h
        by_cases ha : allocOk
        · simp [ha] at h
        · simpa using ha
      · rintro ⟨hm, ha⟩
        subst ha
        rw [li_not_mem_fst false num l hm]
        simp
    refine ⟨li_sorted allocOk num l hsl, hfst1, li_fst_one_snd allocOk num l,
      hfst0, ?_, hfstm1, ?_⟩
    · intro h x
      obtain ⟨hm, ha⟩ := hfst0.mp h
      subst ha
      exact li_true_mem num l x
    · intro h
      obtain ⟨hm, ha⟩ := hfstm1.mp h
      subst ha
      exact li_false_snd num l
  · intro g fuel lower upper a0 ops a i hnew hrun
    have hlt : lower ≤ upper := by
      by_contra hc
      simp [anon_uint64_new, hc] at hnew
    have h0 : a0.list.Pairwise (· > ·) := by
      unfold anon_uint64_new at hnew
      rw [if_pos hlt] at hnew
      injection hnew with hnew
      rw [← hnew]
      simp
    exact runOps_sorted g fuel a0 0 ops a i h0 hrun

/-- Claim C10 witness: inserting 5 into the sorted list `[7, 3]` keeps
it sorted, and the mapper reached from `anon_uint64_new 0 9` by
`set_used 3` has a sorted internal list. -/
theorem c10_witness :
    (list_insert true 5 [7, 3]).2.Pairwise (· > ·) ∧
    c10A.list.Pairwise (· > ·) :=
  ⟨(c10_list_invariant.1 true 5 [7, 3] (by decide)).1,
   c10_list_invariant.2 id 1 0 9 mk09 [Op.setUsed 3] c10A 0 rfl rfl⟩

end Libanon
